import Mathlib

/-
Shallow embedding of the Markov sequence generator in `src/lib/markov.ts`
(class `MarkovGenerator`), together with proofs about the claims of its
specification.

Modelling conventions:
* a JavaScript string is its list of UTF-16 code units (`Str := List Char`);
* a JavaScript object used as a string-keyed map is an association list
  whose list order is the object's own-property order.  JavaScript
  enumerates array-index-like keys (canonical decimal strings below
  `2^32 - 1`) first, in ascending numeric order, and all remaining string
  keys in insertion order; `jsSet` reproduces this;
* `Math.random()` is abstracted as a stream `rand : Nat → Nat` of draws,
  consumed left to right; the `k`-th executed `Math.floor(Math.random() *
  total)` yields `rand k % total`, an arbitrary integer in `[0, total)`;
* numbers flowing through `parseInt` are modelled as `Option Int`, with
  `none` playing the role of `NaN` (every comparison with `NaN` is false);
* a thrown `Error` is `Except.error ()`.
-/

namespace Markov

/-- Characters of a JavaScript string; a string is its list of UTF-16 units. -/
abbrev Str := List Char

/-- A JavaScript object used as a map from string keys to values, with the
object's own-property order made explicit as the list order. -/
abbrev JsMap (α : Type) := List (Str × α)

/-- `FrequencyMap` of the source: map from a choice to its count/weight. -/
abbrev FrequencyMap := JsMap Nat

/-- `RawModel` of the source: map from a category name to its frequency map. -/
abbrev RawModel := JsMap FrequencyMap

/-- First lookup of a key in a JS map (object property access). -/
def lookupS {α : Type} : JsMap α → Str → Option α
  | [], _ => none
  | (k0, v) :: t, k => if k0 = k then some v else lookupS t k

/-- Keys of a JS map, in own-property order. -/
def keysOf {α : Type} (l : JsMap α) : List Str := l.map Prod.fst

/-- Decimal digit test for a character. -/
def isDigitC (c : Char) : Bool := 48 ≤ c.toNat && c.toNat ≤ 57

/-- Numeric value of a list of decimal digit characters. -/
def digitsVal (s : Str) : Nat := s.foldl (fun a c => 10 * a + (c.toNat - 48)) 0

/-- Canonical decimal numeral test: nonempty, all digits, no leading zero
except for the numeral `0` itself. -/
def isCanonNum (s : Str) : Bool :=
  decide (s ≠ []) && s.all isDigitC && (decide (s = ['0']) || decide (s.head? ≠ some '0'))

/-- JavaScript array-index keys: canonical numerals whose value is below
`2^32 - 1`.  These enumerate before all other own properties. -/
def arrayIdx (s : Str) : Option Nat :=
  if isCanonNum s && decide (digitsVal s < 4294967295) then some (digitsVal s) else none

/-- Insert a key that is not yet present at the position JavaScript's
own-property order assigns to it: an array-index key goes before the first
key that is a larger index or not an index; any other key goes last. -/
def jsInsertNew {α : Type} : JsMap α → Str → α → JsMap α
  | [], k, v => [(k, v)]
  | (k0, v0) :: t, k, v =>
    match arrayIdx k, arrayIdx k0 with
    | some n, some n0 =>
      if n < n0 then (k, v) :: (k0, v0) :: t else (k0, v0) :: jsInsertNew t k v
    | some _, none => (k, v) :: (k0, v0) :: t
    | none, _ => (k0, v0) :: jsInsertNew t k v

/-- Overwrite the value at an existing key, keeping its position. -/
def replaceV {α : Type} : JsMap α → Str → α → JsMap α
  | [], _, _ => []
  | (k0, w) :: t, k, v =>
    if k0 = k then (k0, v) :: replaceV t k v else (k0, w) :: replaceV t k v

/-- JavaScript property write `obj[k] = v`: update in place when the key
exists, otherwise insert at the own-property-order position. -/
def jsSet {α : Type} (l : JsMap α) (k : Str) (v : α) : JsMap α :=
  match lookupS l k with
  | some _ => replaceV l k v
  | none => jsInsertNew l k v

/-- Frequency map stored under a category, `[]` when the category is absent. -/
def catOf (m : RawModel) (cat : Str) : FrequencyMap := (lookupS m cat).getD []

/-- JS `\s` (the class used by the tokenizing regex and by `parseInt`). -/
def isWsChar (c : Char) : Bool :=
  c.toNat = 32 || c.toNat = 9 || c.toNat = 10 || c.toNat = 11 || c.toNat = 12 ||
  c.toNat = 13 || c.toNat = 160 || c.toNat = 5760 ||
  (8192 ≤ c.toNat && c.toNat ≤ 8202) || c.toNat = 8232 || c.toNat = 8233 ||
  c.toNat = 8239 || c.toNat = 8287 || c.toNat = 12288 || c.toNat = 65279

/-- Accumulator-based splitting on whitespace runs (`cur` holds the reversed
current token). -/
def splitWsAux : Str → Str → List Str
  | [], cur => if cur = [] then [] else [cur.reverse]
  | c :: rest, cur =>
    if isWsChar c then
      if cur = [] then splitWsAux rest [] else cur.reverse :: splitWsAux rest []
    else splitWsAux rest (c :: cur)

/-- `sequence.split(/\s+/).filter((t) => t.length > 0)`: the maximal
non-whitespace runs of the string. -/
def splitWs (s : Str) : List Str := splitWsAux s []

/-- `String(n)` for a natural number. -/
def natToStr (n : Nat) : Str := (Nat.repr n).data

/-- Fixed category name `termCount`. -/
def termCountK : Str := "termCount".toList

/-- Fixed category name `termLength`. -/
def termLengthK : Str := "termLength".toList

/-- Fixed category name `initialUnit`. -/
def initialUnitK : Str := "initialUnit".toList

/-- The `increment` helper of `buildRawModel`: skip an empty choice,
materialize the category if needed, then bump the choice's count. -/
def increment (m : RawModel) (cat : Str) (choice : Str) : RawModel :=
  if choice = [] then m
  else
    let m1 := match lookupS m cat with
      | some _ => m
      | none => jsSet m cat ([] : FrequencyMap)
    match lookupS m1 cat with
    | some fm => jsSet m1 cat (jsSet fm choice ((lookupS fm choice).getD 0 + 1))
    | none => m1

/-- Initial model structure `{ termCount: {}, termLength: {}, initialUnit: {} }`. -/
def initModel : RawModel := [(termCountK, []), (termLengthK, []), (initialUnitK, [])]

/-- Inner character walk of `buildRawModel`: for each remaining character,
increment the frequency of the current unit in the category named by the
previous unit. -/
def procTermChars : RawModel → Str → List Char → RawModel
  | m, _, [] => m
  | m, prev, c :: rest => procTermChars (increment m prev [c]) [c] rest

/-- Per-term work of `buildRawModel`: record length, initial unit, and the
character transitions of one term. -/
def procTerm (m : RawModel) (t : Str) : RawModel :=
  let m1 := increment m termLengthK (natToStr t.length)
  match t with
  | [] => m1
  | c :: rest => procTermChars (increment m1 initialUnitK [c]) [c] rest

/-- Per-source-string work of `buildRawModel`: skip empty strings and
strings with no terms, record the term count, then process each term. -/
def procSeq (m : RawModel) (s : Str) : RawModel :=
  if s = [] then m
  else
    let terms := splitWs s
    if terms = [] then m
    else terms.foldl procTerm (increment m termCountK (natToStr terms.length))

/-- `MarkovGenerator.buildRawModel`. -/
def buildRawModel (srcs : List Str) : RawModel := srcs.foldl procSeq initModel

/-! ## Weighting stage -/

/-- Largest `k ≤ b` with `k ^ 10 ≤ m` (`0` when there is none). -/
def rootAux (m : Nat) : Nat → Nat
  | 0 => 0
  | k + 1 => if (k + 1) ^ 10 ≤ m then k + 1 else rootAux m k

/-- `Math.floor(Math.pow(n, 1.3))`: the integer part of `n ^ (13/10)`,
computed exactly as the largest `k` with `k ^ 10 ≤ n ^ 13` (such a `k` is
at most `n ^ 2`). -/
def weightOf (n : Nat) : Nat := rootAux (n ^ 13) (n * n)

/-- Map every count of a frequency map through `weightOf`, in place. -/
def reweighFM (fm : FrequencyMap) : FrequencyMap :=
  fm.map fun p => (p.1, weightOf p.2)

/-- Sum of the stored weights of a frequency map. -/
def sumW (fm : FrequencyMap) : Nat := (fm.map Prod.snd).sum

/-- The model after the weighting stage: re-weighted categories plus the
`selectionWeights` totals object. -/
structure WeightedModel where
  cats : RawModel
  sw : JsMap Nat
deriving DecidableEq

/-- `MarkovGenerator.applyWeighting`: replace every count by its weighted
count and record each category's total under `selectionWeights`. -/
def applyWeighting (m : RawModel) : WeightedModel :=
  { cats := m.map fun p => (p.1, reweighFM p.2),
    sw := m.map fun p => (p.1, sumW (reweighFM p.2)) }

/-- The minimal valid model the constructor builds for empty input. -/
def emptyWeighted : WeightedModel :=
  { cats := [(termCountK, []), (termLengthK, []), (initialUnitK, [])], sw := [] }

/-- The `MarkovGenerator` constructor: train on the source sequences, or
fall back to the minimal empty model when the input array is empty. -/
def mkGenerator (srcs : List Str) : WeightedModel :=
  if srcs = [] then emptyWeighted else applyWeighting (buildRawModel srcs)

/-! ## Weighted sampling -/

/-- Cumulative-weight scan of `selectChoice`: return the first choice whose
accumulated weight exceeds the drawn index `r`, `none` when the scan runs
off the end of the map. -/
def walkAux : FrequencyMap → Nat → Nat → Option Str
  | [], _, _ => none
  | (c, w) :: t, r, acc => if r < acc + w then some c else walkAux t r (acc + w)

/-- Fallback of `selectChoice`: `choices[choices.length - 1] || false`. -/
def lastKeyFallback (fm : FrequencyMap) : Option Str :=
  match fm.getLast? with
  | some (c, _) => if c = [] then none else some c
  | none => none

/-- Scan plus fallback of `selectChoice` for a drawn index `r`. -/
def walkFM (fm : FrequencyMap) (r : Nat) : Option Str :=
  match walkAux fm r 0 with
  | some c => some c
  | none => lastKeyFallback fm

/-- `MarkovGenerator.selectChoice`, with the random stream made explicit:
`k` is the number of `Math.random()` draws consumed so far, and the result
pairs the selected choice (`none` for the `false` result) with the updated
draw count.  A draw is consumed only on the path that reaches
`Math.random()` in the source. -/
def selectChoice (m : WeightedModel) (cat : Str) (rand : Nat → Nat) (k : Nat) :
    Option Str × Nat :=
  match lookupS m.sw cat with
  | none => (none, k)
  | some total =>
    if total = 0 then (none, k)
    else
      match lookupS m.cats cat with
      | none => (none, k)
      | some fm =>
        if fm = [] then (none, k)
        else (walkFM fm (rand k % total), k + 1)

/-! ## Number handling and JS truthiness -/

/-- Longest decimal-digit prefix of a string, `none` when it is empty. -/
def parseDigits (s : Str) : Option Nat :=
  let ds := s.takeWhile isDigitC
  if ds = [] then none else some (digitsVal ds)

/-- `parseInt(s, 10)`: skip leading whitespace, read an optional sign and
the longest digit prefix; `none` is `NaN`. -/
def parseIntJS (s : Str) : Option Int :=
  match s.dropWhile isWsChar with
  | '-' :: rest => (parseDigits rest).map fun n => -(n : Int)
  | '+' :: rest => (parseDigits rest).map fun n => (n : Int)
  | s1 => (parseDigits s1).map fun n => (n : Int)

/-- JS falsiness of a `selectChoice` result: `false` or the empty string. -/
def falsy : Option Str → Bool
  | none => true
  | some s => decide (s = [])

/-- `x || d` for a `selectChoice` result used as a string. -/
def orD (o : Option Str) (d : Str) : Str :=
  match o with
  | some s => if s = [] then d else s
  | none => d

/-- `v <= 0` on a parsed number; false for `NaN`. -/
def le0 : Option Int → Bool
  | none => false
  | some z => decide (z ≤ 0)

/-- Iteration count of `for (let i = 0; i < v; i++)`, and equally the bound
of `length < v`: `0` for `NaN` or a negative `v`. -/
def toIterNat : Option Int → Nat
  | none => 0
  | some z => z.toNat

/-- Default strings `'1'` and `'6'` of `generate`. -/
def oneStr : Str := ['1']

/-- Default string `'6'` of `generate`. -/
def sixStr : Str := ['6']

/-! ## Generation -/

/-- The while loop growing one term.  `tl` is the target length bound of
the loop condition and `fuel` a structural bound on the iteration count:
each executed iteration appends at least one character, so any
`fuel ≥ tl - cur.length` makes the recursion reproduce the loop exactly
(see `growTerm_fuel`). -/
def growTerm (m : WeightedModel) (rand : Nat → Nat) (tl : Nat) :
    Nat → Str → Str → Nat → Str × Nat
  | 0, _, cur, k => (cur, k)
  | fuel + 1, prev, cur, k =>
    if cur.length < tl then
      match selectChoice m prev rand k with
      | (none, k1) => (cur, k1)
      | (some nu, k1) =>
        if nu = [] then (cur, k1)
        else growTerm m rand tl fuel nu (cur ++ nu) k1
    else (cur, k)

/-- The `termLength` draw of one loop iteration of `generate`. -/
def stepTL (m : WeightedModel) (rand : Nat → Nat) (k : Nat) : Option Str × Nat :=
  selectChoice m termLengthK rand k

/-- The parsed term length of one loop iteration of `generate`. -/
def stepLen (m : WeightedModel) (rand : Nat → Nat) (k : Nat) : Option Int :=
  parseIntJS (orD (stepTL m rand k).1 sixStr)

/-- The `initialUnit` draw of one loop iteration of `generate`. -/
def stepIni (m : WeightedModel) (rand : Nat → Nat) (k : Nat) : Option Str × Nat :=
  selectChoice m initialUnitK rand (stepTL m rand k).2

/-- The throw condition `!initial || termLength <= 0` of one iteration. -/
def stepFail (m : WeightedModel) (rand : Nat → Nat) (k : Nat) : Bool :=
  falsy (stepIni m rand k).1 || le0 (stepLen m rand k)

/-- The grown term of one non-failing iteration, with the draw count after
the growth loop. -/
def stepGrow (m : WeightedModel) (rand : Nat → Nat) (k : Nat) : Str × Nat :=
  let s := (stepIni m rand k).1.getD []
  let tl := toIterNat (stepLen m rand k)
  growTerm m rand tl tl s s (stepIni m rand k).2

/-- The term loop of `generate`: run `i` iterations, threading the draw
count and accumulating the produced terms; a failing iteration throws. -/
def genTerms (m : WeightedModel) (rand : Nat → Nat) :
    Nat → Nat → List Str → Except Unit (List Str) × Nat
  | 0, k, acc => (.ok acc, k)
  | i + 1, k, acc =>
    if stepFail m rand k then (.error (), (stepIni m rand k).2)
    else genTerms m rand i (stepGrow m rand k).2 (acc ++ [(stepGrow m rand k).1])

/-- The `termCount` draw of `generate`. -/
def tcSample (m : WeightedModel) (rand : Nat → Nat) (k : Nat) : Option Str × Nat :=
  selectChoice m termCountK rand k

/-- The parsed term count of `generate` (default `1`). -/
def tcIter (m : WeightedModel) (rand : Nat → Nat) (k : Nat) : Nat :=
  toIterNat (parseIntJS (orD (tcSample m rand k).1 oneStr))

/-- One `generate()` call starting at draw count `k`: the produced list of
terms (or the thrown error) with the final draw count. -/
def generateRun (m : WeightedModel) (rand : Nat → Nat) (k : Nat) :
    Except Unit (List Str) × Nat :=
  genTerms m rand (tcIter m rand k) (tcSample m rand k).2 []

/-- `terms.join(' ')`. -/
def joinSp (ts : List Str) : Str := List.intercalate [' '] ts

/-- `MarkovGenerator.generate`, consuming the random stream from its start. -/
def generate (m : WeightedModel) (rand : Nat → Nat) : Except Unit Str :=
  (generateRun m rand 0).1.map joinSp

/-- Loop of `generateList`: run `n` `generate()` calls on the shared random
stream, collecting the joined results; a thrown error propagates. -/
def genListAux (m : WeightedModel) (rand : Nat → Nat) :
    Nat → Nat → Except Unit (List Str) × Nat
  | 0, k => (.ok [], k)
  | n + 1, k =>
    match generateRun m rand k with
    | (.ok ts, k1) =>
      match genListAux m rand n k1 with
      | (.ok rest, k2) => (.ok (joinSp ts :: rest), k2)
      | (.error e, k2) => (.error e, k2)
    | (.error e, k1) => (.error e, k1)

/-- `MarkovGenerator.generateList(count)`: `Math.max(0, Math.floor(count))`
calls of `generate()`; the count is a JS number, modelled as a rational. -/
def generateList (m : WeightedModel) (rand : Nat → Nat) (count : ℚ) :
    Except Unit (List Str) :=
  (genListAux m rand (Int.floor count).toNat 0).1

instance {α : Type} [DecidableEq α] : DecidableEq (Except Unit α) := fun a b =>
  match a, b with
  | .error (), .error () => isTrue rfl
  | .ok x, .ok y =>
    if h : x = y then isTrue (by rw [h]) else isFalse fun hc => h (Except.ok.inj hc)
  | .error (), .ok _ => isFalse fun hc => nomatch hc
  | .ok _, .error () => isFalse fun hc => nomatch hc

/-! ## Insertion-order variant of the trainer, following the specification's words

The specification asserts that the stored iteration order of a category's
choices is "insertion order of first occurrence during training".  The
following definitions build the model with exactly that policy (a fresh key
always goes last), to be compared with `buildRawModel`, whose `jsSet`
reproduces the actual JavaScript own-property order. -/

/-- Modelled from the spec: property write placing a fresh key at the end,
so that choices are stored in insertion order of first occurrence. -/
def insSet {α : Type} (l : JsMap α) (k : Str) (v : α) : JsMap α :=
  match lookupS l k with
  | some _ => replaceV l k v
  | none => l ++ [(k, v)]

/-- Modelled from the spec: `increment` with insertion-order storage. -/
def incrementIns (m : RawModel) (cat : Str) (choice : Str) : RawModel :=
  if choice = [] then m
  else
    let m1 := match lookupS m cat with
      | some _ => m
      | none => insSet m cat ([] : FrequencyMap)
    match lookupS m1 cat with
    | some fm => insSet m1 cat (insSet fm choice ((lookupS fm choice).getD 0 + 1))
    | none => m1

/-- Modelled from the spec: character walk with insertion-order storage. -/
def procTermCharsIns : RawModel → Str → List Char → RawModel
  | m, _, [] => m
  | m, prev, c :: rest => procTermCharsIns (incrementIns m prev [c]) [c] rest

/-- Modelled from the spec: per-term work with insertion-order storage. -/
def procTermIns (m : RawModel) (t : Str) : RawModel :=
  let m1 := incrementIns m termLengthK (natToStr t.length)
  match t with
  | [] => m1
  | c :: rest => procTermCharsIns (incrementIns m1 initialUnitK [c]) [c] rest

/-- Modelled from the spec: per-source work with insertion-order storage. -/
def procSeqIns (m : RawModel) (s : Str) : RawModel :=
  if s = [] then m
  else
    let terms := splitWs s
    if terms = [] then m
    else terms.foldl procTermIns (incrementIns m termCountK (natToStr terms.length))

/-- Modelled from the spec: the raw model with every category's choices in
insertion order of first occurrence during training. -/
def buildRawModelIns (srcs : List Str) : RawModel := srcs.foldl procSeqIns initModel

/-! ## Observed characters of the training data -/

/-- A character observed as the first character of some training term (an
`initialUnit` choice). -/
def initialsObs (srcs : List Str) (c : Char) : Prop :=
  ∃ s ∈ srcs, ∃ t ∈ splitWs s, t.head? = some c

/-- A character observed as a transition target: a character immediately
following some character inside a training term. -/
def targetsObs (srcs : List Str) (c : Char) : Prop :=
  ∃ s ∈ srcs, ∃ t ∈ splitWs s, c ∈ t.drop 1

instance {srcs : List Str} {c : Char} : Decidable (initialsObs srcs c) := by
  unfold initialsObs; infer_instance

instance {srcs : List Str} {c : Char} : Decidable (targetsObs srcs c) := by
  unfold targetsObs; infer_instance

/-- A character observed anywhere the generator can echo it from: as the
first character of a training term or as a transition target. -/
def ObsChar (srcs : List Str) (c : Char) : Prop :=
  initialsObs srcs c ∨ targetsObs srcs c

/-- Every value stored in any category of the model is at least `1`. -/
def PosM (m : RawModel) : Prop := ∀ cat p, p ∈ catOf m cat → 1 ≤ p.2

/-- The core existential of claim C9: some model reachable from training
data stores a leaf entry whose re-weighted value is `0`. -/
def ZeroWeightReachable : Prop :=
  ∃ (srcs : List Str) (cat : Str) (fm : FrequencyMap) (p : Str × Nat),
    lookupS (mkGenerator srcs).cats cat = some fm ∧ p ∈ fm ∧ p.2 = 0

/-- Provenance invariant of the raw model under training: every
`initialUnit` choice is a single character observed first in a term, and
every choice of a transition category (a category named by one character)
is a single character observed as a transition target. -/
def InvRaw (srcs : List Str) (m : RawModel) : Prop :=
  (∀ s ∈ keysOf (catOf m initialUnitK), ∃ c, s = [c] ∧ initialsObs srcs c) ∧
  (∀ (a : Char), ∀ s ∈ keysOf (catOf m [a]), ∃ c, s = [c] ∧ targetsObs srcs c)

/-! ## Lemmas about JS maps -/

theorem jsInsertNew_split {α : Type} (l : JsMap α) (k : Str) (v : α) :
    ∃ l₁ l₂, l = l₁ ++ l₂ ∧ jsInsertNew l k v = l₁ ++ (k, v) :: l₂ := by
  induction l with
  | nil => exact ⟨[], [], rfl, rfl⟩
  | cons p t ih =>
    obtain ⟨k0, v0⟩ := p
    obtain ⟨l₁, l₂, h1, h2⟩ := ih
    cases hk : arrayIdx k with
    | none =>
      exact ⟨(k0, v0) :: l₁, l₂, by simp [h1], by simp [jsInsertNew, hk, h2]⟩
    | some n =>
      cases hp : arrayIdx k0 with
      | none => exact ⟨[], (k0, v0) :: t, rfl, by simp [jsInsertNew, hk, hp]⟩
      | some n0 =>
        by_cases hlt : n < n0
        · exact ⟨[], (k0, v0) :: t, rfl, by simp [jsInsertNew, hk, hp, hlt]⟩
        · exact ⟨(k0, v0) :: l₁, l₂, by simp [h1], by simp [jsInsertNew, hk, hp, hlt, h2]⟩

theorem lookupS_append {α : Type} (l₁ l₂ : JsMap α) (k : Str) :
    lookupS (l₁ ++ l₂) k =
      match lookupS l₁ k with
      | some v => some v
      | none => lookupS l₂ k := by
  induction l₁ with
  | nil => simp [lookupS]
  | cons p t ih =>
    obtain ⟨k0, v0⟩ := p
    by_cases h0 : k0 = k <;> simp [lookupS, h0, ih]

theorem lookupS_jsInsertNew_self {α : Type} (l : JsMap α) (k : Str) (v : α)
    (h : lookupS l k = none) : lookupS (jsInsertNew l k v) k = some v := by
  obtain ⟨l₁, l₂, h1, h2⟩ := jsInsertNew_split l k v
  have hl₁ : lookupS l₁ k = none := by
    rw [h1, lookupS_append] at h
    cases h3 : lookupS l₁ k with
    | none => rfl
    | some w => simp [h3] at h
  rw [h2, lookupS_append]
  simp only [hl₁]
  simp [lookupS]

theorem lookupS_jsInsertNew_ne {α : Type} (l : JsMap α) (k k' : Str) (v : α)
    (h : k' ≠ k) : lookupS (jsInsertNew l k v) k' = lookupS l k' := by
  obtain ⟨l₁, l₂, h1, h2⟩ := jsInsertNew_split l k v
  rw [h2, h1, lookupS_append, lookupS_append]
  cases h3 : lookupS l₁ k' with
  | some w => rfl
  | none =>
    show lookupS ((k, v) :: l₂) k' = lookupS l₂ k'
    simp only [lookupS]
    rw [if_neg fun hc => h hc.symm]

theorem lookupS_replaceV_self {α : Type} (l : JsMap α) (k : Str) (v v0 : α)
    (h : lookupS l k = some v0) : lookupS (replaceV l k v) k = some v := by
  induction l with
  | nil => simp [lookupS] at h
  | cons p t ih =>
    obtain ⟨k0, w⟩ := p
    by_cases h0 : k0 = k
    · subst h0
      simp [replaceV, lookupS]
    · simp only [lookupS, h0, if_false] at h
      simp only [replaceV, h0, if_false, lookupS]
      exact ih h

theorem lookupS_replaceV_ne {α : Type} (l : JsMap α) (k k' : Str) (v : α)
    (h : k' ≠ k) : lookupS (replaceV l k v) k' = lookupS l k' := by
  induction l with
  | nil => rfl
  | cons p t ih =>
    obtain ⟨k0, w⟩ := p
    by_cases h0 : k0 = k
    · subst h0
      have hne : ¬k0 = k' := fun hc => h (hc ▸ rfl)
      simp only [replaceV, eq_self_iff_true, if_true, lookupS, hne, if_false]
      exact ih
    · simp only [replaceV, h0, if_false, lookupS]
      by_cases h1 : k0 = k' <;> simp [h1, ih]

theorem keysOf_replaceV {α : Type} (l : JsMap α) (k : Str) (v : α) :
    keysOf (replaceV l k v) = keysOf l := by
  induction l with
  | nil => rfl
  | cons p t ih =>
    obtain ⟨k0, w⟩ := p
    by_cases h0 : k0 = k <;> simp [replaceV, h0, keysOf] at ih ⊢ <;> exact ih

theorem lookupS_jsSet_self {α : Type} (l : JsMap α) (k : Str) (v : α) :
    lookupS (jsSet l k v) k = some v := by
  unfold jsSet
  cases h : lookupS l k with
  | some w => exact lookupS_replaceV_self l k v w h
  | none => exact lookupS_jsInsertNew_self l k v h

theorem lookupS_jsSet_ne {α : Type} (l : JsMap α) (k k' : Str) (v : α)
    (h : k' ≠ k) : lookupS (jsSet l k v) k' = lookupS l k' := by
  unfold jsSet
  cases lookupS l k with
  | some w => exact lookupS_replaceV_ne l k k' v h
  | none => exact lookupS_jsInsertNew_ne l k k' v h

theorem mem_replaceV {α : Type} (l : JsMap α) (k : Str) (v : α) (p : Str × α)
    (h : p ∈ replaceV l k v) : p = (k, v) ∨ p ∈ l := by
  induction l with
  | nil => simp [replaceV] at h
  | cons q t ih =>
    obtain ⟨k0, w⟩ := q
    by_cases h0 : k0 = k
    · subst h0
      simp only [replaceV, eq_self_iff_true, if_true, List.mem_cons] at h
      rcases h with h1 | h2
      · exact Or.inl h1
      · rcases ih h2 with h' | h'
        · exact Or.inl h'
        · exact Or.inr (List.mem_cons_of_mem _ h')
    · simp only [replaceV, h0, if_false, List.mem_cons] at h
      rcases h with h1 | h2
      · exact Or.inr (by simp [h1])
      · rcases ih h2 with h' | h'
        · exact Or.inl h'
        · exact Or.inr (List.mem_cons_of_mem _ h')

theorem mem_keys_jsSet {α : Type} (l : JsMap α) (k : Str) (v : α) (a : Str)
    (h : a ∈ keysOf (jsSet l k v)) : a = k ∨ a ∈ keysOf l := by
  unfold jsSet at h
  cases hl : lookupS l k with
  | some w =>
    rw [hl, keysOf_replaceV] at h
    exact Or.inr h
  | none =>
    rw [hl] at h
    obtain ⟨l₁, l₂, h1, h2⟩ := jsInsertNew_split l k v
    rw [h2] at h
    simp only [keysOf, List.map_append, List.map_cons, List.mem_append, List.mem_cons] at h
    rcases h with h | h | h
    · right
      rw [h1]
      simp only [keysOf, List.map_append, List.mem_append]
      exact Or.inl h
    · exact Or.inl h
    · right
      rw [h1]
      simp only [keysOf, List.map_append, List.mem_append]
      exact Or.inr h

theorem mem_jsSet {α : Type} (l : JsMap α) (k : Str) (v : α) (p : Str × α)
    (h : p ∈ jsSet l k v) : p = (k, v) ∨ p ∈ l := by
  unfold jsSet at h
  cases hl : lookupS l k with
  | some w =>
    rw [hl] at h
    exact mem_replaceV l k v p h
  | none =>
    rw [hl] at h
    obtain ⟨l₁, l₂, h1, h2⟩ := jsInsertNew_split l k v
    rw [h2] at h
    simp only [List.mem_append, List.mem_cons] at h
    rcases h with h | h | h
    · right
      rw [h1]
      exact List.mem_append.mpr (Or.inl h)
    · exact Or.inl h
    · right
      rw [h1]
      exact List.mem_append.mpr (Or.inr h)

theorem lookupS_mapVals {α β : Type} (f : α → β) (l : JsMap α) (k : Str) :
    lookupS (l.map fun p => (p.1, f p.2)) k = (lookupS l k).map f := by
  induction l with
  | nil => simp [lookupS]
  | cons p t ih =>
    obtain ⟨k0, v⟩ := p
    by_cases h : k0 = k <;> simp [lookupS, h, ih]

theorem mem_of_getLast? {α : Type} (l : List α) (a : α) (h : l.getLast? = some a) :
    a ∈ l := by
  induction l with
  | nil => simp at h
  | cons x t ih =>
    cases t with
    | nil => simp at h; simp [h]
    | cons y u =>
      rw [List.getLast?_cons_cons] at h
      exact List.mem_cons_of_mem x (ih h)

/-! ## Lemmas about `increment` -/

theorem increment_eq (m : RawModel) (cat ch : Str) :
    increment m cat ch =
      if ch = [] then m
      else
        match lookupS m cat with
        | some fm => jsSet m cat (jsSet fm ch ((lookupS fm ch).getD 0 + 1))
        | none => jsSet (jsSet m cat ([] : FrequencyMap)) cat (jsSet [] ch 1) := by
  unfold increment
  by_cases h : ch = []
  · simp [h]
  · simp only [h, if_false]
    cases h1 : lookupS m cat with
    | some fm => simp [h1]
    | none =>
      have h2 : lookupS (jsSet m cat ([] : FrequencyMap)) cat = some [] :=
        lookupS_jsSet_self m cat []
      simp [h1, h2, lookupS]

theorem lookupS_increment_ne (m : RawModel) (cat ch cat' : Str) (h : cat' ≠ cat) :
    lookupS (increment m cat ch) cat' = lookupS m cat' := by
  rw [increment_eq]
  by_cases hch : ch = []
  · simp [hch]
  · simp only [hch, if_false]
    cases h1 : lookupS m cat with
    | some fm => exact lookupS_jsSet_ne _ _ _ _ h
    | none => rw [lookupS_jsSet_ne _ _ _ _ h, lookupS_jsSet_ne _ _ _ _ h]

theorem catOf_increment_ne (m : RawModel) (cat ch cat' : Str) (h : cat' ≠ cat) :
    catOf (increment m cat ch) cat' = catOf m cat' := by
  unfold catOf
  rw [lookupS_increment_ne m cat ch cat' h]

theorem catOf_increment_self (m : RawModel) (cat ch : Str) (hch : ¬ch = []) :
    catOf (increment m cat ch) cat =
      jsSet (catOf m cat) ch ((lookupS (catOf m cat) ch).getD 0 + 1) := by
  rw [increment_eq]
  simp only [hch, if_false]
  cases h1 : lookupS m cat with
  | some fm => simp [catOf, lookupS_jsSet_self, h1]
  | none => simp [catOf, lookupS_jsSet_self, h1, lookupS]

theorem keys_catOf_increment (m : RawModel) (cat ch a : Str)
    (h : a ∈ keysOf (catOf (increment m cat ch) cat)) :
    a = ch ∨ a ∈ keysOf (catOf m cat) := by
  by_cases hch : ch = []
  · right
    rw [increment_eq] at h
    simpa [hch] using h
  · rw [catOf_increment_self m cat ch hch] at h
    exact mem_keys_jsSet _ _ _ _ h

/-! ## Lemmas about the weighting stage -/

theorem keysOf_reweighFM (fm : FrequencyMap) : keysOf (reweighFM fm) = keysOf fm := by
  simp [keysOf, reweighFM, List.map_map, Function.comp]

theorem rootAux_le (m b : Nat) : rootAux m b ≤ b := by
  induction b with
  | zero => exact Nat.le_refl 0
  | succ b ih =>
    rw [rootAux]
    split
    · exact Nat.le_refl _
    · exact Nat.le_succ_of_le ih

theorem rootAux_pow_le (m b : Nat) : rootAux m b ^ 10 ≤ m := by
  induction b with
  | zero => simp [rootAux]
  | succ b ih =>
    rw [rootAux]
    split
    · assumption
    · exact ih

theorem rootAux_max (m b j : Nat) (hjb : j ≤ b) (hj : j ^ 10 ≤ m) :
    j ≤ rootAux m b := by
  induction b with
  | zero => simpa [rootAux] using hjb
  | succ b ih =>
    rw [rootAux]
    split
    · exact hjb
    · rename_i hb
      rcases Nat.lt_or_ge j (b + 1) with hlt | hge
      · exact ih (Nat.lt_succ_iff.mp hlt)
      · have hjeq : j = b + 1 := Nat.le_antisymm hjb hge
        exact absurd (hjeq ▸ hj) hb

theorem weightOf_spec (n : Nat) :
    weightOf n ^ 10 ≤ n ^ 13 ∧ n ^ 13 < (weightOf n + 1) ^ 10 := by
  refine ⟨rootAux_pow_le _ _, ?_⟩
  by_contra hc
  push_neg at hc
  rcases Nat.eq_zero_or_pos n with h0 | h0
  · subst h0
    simp at hc
  · have h13 : n ^ 13 ≤ (n * n) ^ 10 := by
      rw [← Nat.pow_two, ← Nat.pow_mul]
      exact Nat.pow_le_pow_right h0 (by omega)
    have hle : weightOf n + 1 ≤ n * n := by
      have := Nat.le_trans hc h13
      exact (Nat.pow_le_pow_iff_left (by omega)).mp this
    have := rootAux_max (n ^ 13) (n * n) (weightOf n + 1) hle hc
    unfold weightOf at this
    omega

theorem weightOf_eq (n k : Nat) (h1 : k ^ 10 ≤ n ^ 13) (h2 : n ^ 13 < (k + 1) ^ 10) :
    weightOf n = k := by
  have hs := weightOf_spec n
  have hmax : k ≤ weightOf n := by
    rcases Nat.eq_zero_or_pos n with h0 | h0
    · subst h0
      simp at h1
      have : k = 0 := by
        by_contra hk
        have : 1 ≤ k := Nat.pos_of_ne_zero hk
        have := Nat.pow_le_pow_left this 10
        simp at this
        omega
      omega
    · have hkb : k ≤ n * n := by
        have h13 : n ^ 13 ≤ (n * n) ^ 10 := by
          rw [← Nat.pow_two, ← Nat.pow_mul]
          exact Nat.pow_le_pow_right h0 (by omega)
        exact (Nat.pow_le_pow_iff_left (by omega)).mp (Nat.le_trans h1 h13)
      exact rootAux_max _ _ _ hkb h1
  have hmax2 : weightOf n ≤ k := by
    by_contra hk
    push_neg at hk
    have : (k + 1) ^ 10 ≤ weightOf n ^ 10 := Nat.pow_le_pow_left hk 10
    omega
  omega

theorem weightOf_pos (n : Nat) (h : 1 ≤ n) : 1 ≤ weightOf n := by
  have h1 : (1 : Nat) ≤ n * n := Nat.one_le_iff_ne_zero.mpr (by positivity)
  have h2 : (1 : Nat) ^ 10 ≤ n ^ 13 := by
    simpa using Nat.one_le_pow 13 n (by omega)
  exact rootAux_max _ _ _ h1 h2

/-! ## Lemmas about the cumulative-weight scan -/

theorem walkAux_mem (fm : FrequencyMap) (r : Nat) :
    ∀ acc c, walkAux fm r acc = some c → c ∈ keysOf fm := by
  induction fm with
  | nil => intro acc c h; simp [walkAux] at h
  | cons p t ih =>
    intro acc c h
    obtain ⟨c0, w⟩ := p
    rw [walkAux] at h
    split at h
    · cases h
      simp [keysOf]
    · have := ih _ _ h
      simp [keysOf] at this ⊢
      exact Or.inr this

theorem walkFM_mem (fm : FrequencyMap) (r : Nat) (c : Str)
    (h : walkFM fm r = some c) : c ∈ keysOf fm := by
  unfold walkFM at h
  cases h1 : walkAux fm r 0 with
  | some c0 =>
    rw [h1] at h
    cases h
    exact walkAux_mem fm r 0 c h1
  | none =>
    rw [h1] at h
    unfold lastKeyFallback at h
    cases h2 : fm.getLast? with
    | none => rw [h2] at h; cases h
    | some p =>
      obtain ⟨c0, w⟩ := p
      rw [h2] at h
      by_cases h3 : c0 = []
      · simp [h3] at h
      · simp only [h3, if_false] at h
        cases h
        have := mem_of_getLast? fm (c, w) h2
        simp only [keysOf, List.mem_map]
        exact ⟨(c, w), this, rfl⟩

theorem walkAux_found (fm : FrequencyMap) :
    ∀ r acc, acc ≤ r → r < acc + sumW fm →
      ∃ i, ∃ hi : i < fm.length, walkAux fm r acc = some (fm.get ⟨i, hi⟩).1 ∧
        acc + sumW (fm.take i) ≤ r ∧ r < acc + sumW (fm.take (i + 1)) := by
  induction fm with
  | nil =>
    intro r acc h1 h2
    simp [sumW] at h2
    omega
  | cons p t ih =>
    intro r acc h1 h2
    obtain ⟨c, w⟩ := p
    by_cases hlt : r < acc + w
    · refine ⟨0, by simp, ?_, ?_, ?_⟩
      · simp [walkAux, hlt]
      · simpa [sumW] using h1
      · simpa [sumW] using hlt
    · have h3 : acc + w ≤ r := by omega
      have h4 : r < (acc + w) + sumW t := by
        have h5 : sumW ((c, w) :: t) = w + sumW t := by simp [sumW]
        omega
      obtain ⟨i, hi, he, hl, hu⟩ := ih r (acc + w) h3 h4
      refine ⟨i + 1, by simpa using Nat.succ_lt_succ hi, ?_, ?_, ?_⟩
      · rw [walkAux, if_neg hlt]
        exact he
      · have h6 : sumW (((c, w) :: t).take (i + 1)) = w + sumW (t.take i) := by
          simp [sumW]
        omega
      · have h6 : sumW (((c, w) :: t).take (i + 1 + 1)) = w + sumW (t.take (i + 1)) := by
          simp [sumW]
        omega

theorem walkAux_zero_found (fm : FrequencyMap) (r : Nat) (h : r < sumW fm) :
    ∃ i, ∃ hi : i < fm.length, walkAux fm r 0 = some (fm.get ⟨i, hi⟩).1 ∧
      sumW (fm.take i) ≤ r ∧ r < sumW (fm.take (i + 1)) := by
  obtain ⟨i, hi, he, hl, hu⟩ := walkAux_found fm r 0 (Nat.zero_le r) (by omega)
  exact ⟨i, hi, he, by omega, by omega⟩

/-! ## Lemmas about `applyWeighting` and `selectChoice` -/

theorem applyWeighting_cats_lookup (raw : RawModel) (cat : Str) :
    lookupS (applyWeighting raw).cats cat = (lookupS raw cat).map reweighFM :=
  lookupS_mapVals reweighFM raw cat

theorem applyWeighting_sw_lookup (raw : RawModel) (cat : Str) :
    lookupS (applyWeighting raw).sw cat =
      (lookupS raw cat).map fun fm => sumW (reweighFM fm) :=
  lookupS_mapVals (fun fm => sumW (reweighFM fm)) raw cat

theorem applyWeighting_lockstep (raw : RawModel) (cat : Str) (total : Nat)
    (fm : FrequencyMap) (hsw : lookupS (applyWeighting raw).sw cat = some total)
    (hc : lookupS (applyWeighting raw).cats cat = some fm) : total = sumW fm := by
  rw [applyWeighting_sw_lookup] at hsw
  rw [applyWeighting_cats_lookup] at hc
  cases h : lookupS raw cat with
  | none => rw [h] at hsw; cases hsw
  | some fm0 =>
    rw [h] at hsw hc
    cases hsw
    cases hc
    rfl

theorem selectChoice_sw_none (m : WeightedModel) (cat : Str) (rand : Nat → Nat)
    (k : Nat) (h : lookupS m.sw cat = none) : selectChoice m cat rand k = (none, k) := by
  unfold selectChoice
  rw [h]

theorem selectChoice_sw_zero (m : WeightedModel) (cat : Str) (rand : Nat → Nat)
    (k : Nat) (h : lookupS m.sw cat = some 0) : selectChoice m cat rand k = (none, k) := by
  unfold selectChoice
  rw [h]
  simp

theorem selectChoice_found (raw : RawModel) (cat : Str) (rand : Nat → Nat) (k : Nat)
    (total : Nat) (fm : FrequencyMap)
    (hsw : lookupS (applyWeighting raw).sw cat = some total)
    (hc : lookupS (applyWeighting raw).cats cat = some fm) (hpos : 0 < total) :
    ∃ i, ∃ hi : i < fm.length,
      selectChoice (applyWeighting raw) cat rand k = (some (fm.get ⟨i, hi⟩).1, k + 1) ∧
      sumW (fm.take i) ≤ rand k % total ∧ rand k % total < sumW (fm.take (i + 1)) := by
  have hts : total = sumW fm := applyWeighting_lockstep raw cat total fm hsw hc
  have hr : rand k % total < total := Nat.mod_lt _ hpos
  have hfm : ¬fm = [] := by
    intro he
    rw [he] at hts
    simp [sumW] at hts
    omega
  obtain ⟨i, hi, he, hl, hu⟩ := walkAux_zero_found fm (rand k % total) (by omega)
  refine ⟨i, hi, ?_, hl, hu⟩
  unfold selectChoice
  simp only [hsw]
  rw [if_neg (show ¬total = 0 by omega)]
  simp only [hc]
  rw [if_neg hfm]
  simp [walkFM, he]

/-- Any `some` result of `selectChoice` is a stored key of the category the
model holds under the requested name. -/
theorem selectChoice_mem (m : WeightedModel) (cat : Str) (rand : Nat → Nat) (k : Nat)
    (s : Str) (k' : Nat) (h : selectChoice m cat rand k = (some s, k')) :
    ∃ fm, lookupS m.cats cat = some fm ∧ s ∈ keysOf fm := by
  unfold selectChoice at h
  split at h
  · simp at h
  · split at h
    · simp at h
    · split at h
      · simp at h
      · split at h
        · simp at h
        · rename_i total hsw htz fm hcats hfm
          rw [Prod.mk.injEq] at h
          exact ⟨fm, hcats, walkFM_mem fm _ s h.1⟩

/-- The draw counter of `selectChoice` never decreases. -/
theorem selectChoice_snd_ge (m : WeightedModel) (cat : Str) (rand : Nat → Nat)
    (k : Nat) : k ≤ (selectChoice m cat rand k).2 := by
  unfold selectChoice
  split
  · exact Nat.le_refl k
  · split
    · exact Nat.le_refl k
    · split
      · exact Nat.le_refl k
      · split
        · exact Nat.le_refl k
        · simp

/-- `selectChoice` reads the random stream only at index `k`, and only when
its result counter is `k + 1`. -/
theorem selectChoice_agree (m : WeightedModel) (cat : Str) (rand1 rand2 : Nat → Nat)
    (k : Nat)
    (h : ∀ j, k ≤ j → j < (selectChoice m cat rand1 k).2 → rand1 j = rand2 j) :
    selectChoice m cat rand2 k = selectChoice m cat rand1 k := by
  unfold selectChoice at h ⊢
  split
  · rfl
  · rename_i total hsw
    simp only [hsw] at h
    split
    · rfl
    · rename_i htz
      rw [if_neg htz] at h
      split
      · rfl
      · rename_i fm hcats
        simp only [hcats] at h
        split
        · rfl
        · rename_i hfm
          rw [if_neg hfm] at h
          have hk : rand1 k = rand2 k := h k (Nat.le_refl k) (by simp)
          rw [hk]

/-! ## Claim C2 -/

/-- C2: for every model produced by the weighting stage from any training
input and every category in it, the `selectionWeights` entry of the
category equals the sum of the category's re-weighted stored values. -/
theorem c2_selectionWeights_total (srcs : List Str) (cat : Str) (fm : FrequencyMap)
    (hc : lookupS (applyWeighting (buildRawModel srcs)).cats cat = some fm) :
    lookupS (applyWeighting (buildRawModel srcs)).sw cat = some (sumW fm) := by
  rw [applyWeighting_cats_lookup] at hc
  rw [applyWeighting_sw_lookup]
  cases h : lookupS (buildRawModel srcs) cat with
  | none => rw [h] at hc; cases hc
  | some fm0 =>
    rw [h] at hc
    cases hc
    rfl

/-- C2 witness: on the training input `["ab"]`, the `initialUnit` category
stores `{a: 1}` and its selection weight is its sum `1`. -/
theorem c2_witness :
    lookupS (applyWeighting (buildRawModel ["ab".toList])).sw initialUnitK =
      some (sumW [(['a'], 1)]) :=
  c2_selectionWeights_total ["ab".toList] initialUnitK [(['a'], 1)] (by decide)

/-! ## Claim C3 -/

/-- C3: the weighting stage maps every stored raw count `n` to
`floor(n^1.3)` — characterized exactly by `w ^ 10 ≤ n ^ 13 < (w+1) ^ 10` —
and in particular `1 ↦ 1`, `2 ↦ 2`, `10 ↦ 19`, `100 ↦ 398`. -/
theorem c3_floor_pow_weighting :
    (∀ n : Nat, weightOf n ^ 10 ≤ n ^ 13 ∧ n ^ 13 < (weightOf n + 1) ^ 10) ∧
    (∀ (srcs : List Str) (cat : Str) (fm : FrequencyMap),
      lookupS (buildRawModel srcs) cat = some fm →
      lookupS (applyWeighting (buildRawModel srcs)).cats cat =
        some (fm.map fun p => (p.1, weightOf p.2))) ∧
    weightOf 1 = 1 ∧ weightOf 2 = 2 ∧ weightOf 10 = 19 ∧ weightOf 100 = 398 := by
  refine ⟨weightOf_spec, ?_, by decide, by decide, by decide,
    weightOf_eq 100 398 (by decide) (by decide)⟩
  intro srcs cat fm h
  rw [applyWeighting_cats_lookup, h]
  rfl

/-- C3 witness: on the training input `["aab"]`, the raw `termLength`
category `{3: 1}` is re-weighted pointwise through `weightOf`. -/
theorem c3_witness :
    lookupS (applyWeighting (buildRawModel ["aab".toList])).cats termLengthK =
      some ([(['3'], 1)].map fun p => (p.1, weightOf p.2)) :=
  c3_floor_pow_weighting.2.1 ["aab".toList] termLengthK [(['3'], 1)] (by decide)

/-! ## Claim C1 -/

/-- C1 (amended): for a weighted model, `selectChoice` signals "no choice"
when the category has no `selectionWeights` entry or its total is zero;
otherwise, for the drawn index `r` in `[0, total)`, it consumes one draw
and returns the first choice in the category's stored order — JavaScript
own-property order — whose cumulative weight strictly exceeds `r`. -/
theorem c1_selectChoice_cumulative (raw : RawModel) (cat : Str) (rand : Nat → Nat)
    (k : Nat) :
    (lookupS (applyWeighting raw).sw cat = none →
      selectChoice (applyWeighting raw) cat rand k = (none, k)) ∧
    (lookupS (applyWeighting raw).sw cat = some 0 →
      selectChoice (applyWeighting raw) cat rand k = (none, k)) ∧
    (∀ total fm r, lookupS (applyWeighting raw).sw cat = some total →
      lookupS (applyWeighting raw).cats cat = some fm → 0 < total →
      rand k % total = r →
      ∃ i, ∃ hi : i < fm.length,
        selectChoice (applyWeighting raw) cat rand k = (some (fm.get ⟨i, hi⟩).1, k + 1) ∧
        sumW (fm.take i) ≤ r ∧ r < sumW (fm.take (i + 1))) := by
  refine ⟨fun h => selectChoice_sw_none _ _ _ _ h,
    fun h => selectChoice_sw_zero _ _ _ _ h, ?_⟩
  intro total fm r hsw hc hpos hr
  subst hr
  exact selectChoice_found raw cat rand k total fm hsw hc hpos

/-- C1 counterexample: training on `["a b", "c"]` inserts the `termCount`
choices in the order `"2"`, `"1"`, but the stored JavaScript own-property
order is the numeric order `"1"`, `"2"`; with drawn index `0` the code
returns `"1"`, while the first choice in insertion order of first
occurrence whose cumulative weight exceeds `0` is `"2"`. -/
theorem c1_counterexample :
    selectChoice (mkGenerator ["a b".toList, "c".toList]) termCountK (fun _ => 0) 0 =
      (some ['1'], 1) ∧
    walkFM (reweighFM (catOf (buildRawModelIns ["a b".toList, "c".toList]) termCountK)) 0 =
      some ['2'] ∧
    (['1'] : Str) ≠ ['2'] := by decide

/-- C1 witness: on the model trained from `["cat"]`, drawing `0` from
`initialUnit` selects the stored first choice `"c"`. -/
theorem c1_witness :
    selectChoice (applyWeighting (buildRawModel ["cat".toList])) initialUnitK
      (fun _ => 0) 0 = (some ['c'], 1) := by
  obtain ⟨i, hi, he, hl, hu⟩ :=
    (c1_selectChoice_cumulative (buildRawModel ["cat".toList]) initialUnitK
      (fun _ => 0) 0).2.2 1 [(['c'], 1)] 0 (by decide) (by decide) (by decide) (by decide)
  have hz : i = 0 := Nat.lt_one_iff.mp hi
  subst hz
  exact he

/-! ## Positivity of stored counts and weights -/

theorem catOf_initModel (cat : Str) : catOf initModel cat = [] := by
  unfold catOf initModel
  by_cases h1 : termCountK = cat <;> by_cases h2 : termLengthK = cat <;>
    by_cases h3 : initialUnitK = cat <;> simp [lookupS, h1, h2, h3]

theorem lookupS_initModel (cat : Str) (fm : FrequencyMap)
    (h : lookupS initModel cat = some fm) : fm = [] := by
  unfold initModel at h
  by_cases h1 : termCountK = cat <;> by_cases h2 : termLengthK = cat <;>
    by_cases h3 : initialUnitK = cat <;> simp [lookupS, h1, h2, h3] at h <;> exact h

theorem posM_initModel : PosM initModel := by
  intro cat p hp
  rw [catOf_initModel] at hp
  simp at hp

theorem posM_increment (m : RawModel) (cat ch : Str) (h : PosM m) :
    PosM (increment m cat ch) := by
  intro cat' p hp
  by_cases hch : ch = []
  · rw [increment_eq] at hp
    rw [if_pos hch] at hp
    exact h cat' p hp
  · by_cases hc : cat' = cat
    · subst hc
      rw [catOf_increment_self m cat' ch hch] at hp
      rcases mem_jsSet _ _ _ _ hp with h1 | h1
      · subst h1
        simp
      · exact h cat' p h1
    · rw [catOf_increment_ne m cat ch cat' hc] at hp
      exact h cat' p hp

theorem posM_procTermChars (l : List Char) :
    ∀ m prev, PosM m → PosM (procTermChars m prev l) := by
  induction l with
  | nil => intro m prev h; exact h
  | cons c rest ih => intro m prev h; exact ih _ _ (posM_increment _ _ _ h)

theorem posM_procTerm (m : RawModel) (t : Str) (h : PosM m) : PosM (procTerm m t) := by
  cases t with
  | nil => exact posM_increment _ _ _ h
  | cons c rest =>
    exact posM_procTermChars rest _ _ (posM_increment _ _ _ (posM_increment _ _ _ h))

theorem posM_foldTerms (terms : List Str) :
    ∀ m, PosM m → PosM (terms.foldl procTerm m) := by
  induction terms with
  | nil => intro m h; exact h
  | cons t rest ih => intro m h; exact ih _ (posM_procTerm _ _ h)

theorem posM_procSeq (m : RawModel) (s : Str) (h : PosM m) : PosM (procSeq m s) := by
  unfold procSeq
  by_cases h1 : s = []
  · simpa [h1] using h
  · simp only [h1, if_false]
    by_cases h2 : splitWs s = []
    · simpa [h2] using h
    · simp only [h2, if_false]
      exact posM_foldTerms _ _ (posM_increment _ _ _ h)

theorem posM_foldSeqs (srcs : List Str) :
    ∀ m, PosM m → PosM (srcs.foldl procSeq m) := by
  induction srcs with
  | nil => intro m h; exact h
  | cons s rest ih => intro m h; exact ih _ (posM_procSeq _ _ h)

theorem posM_buildRawModel (srcs : List Str) : PosM (buildRawModel srcs) :=
  posM_foldSeqs srcs initModel posM_initModel

theorem weighted_values_pos (srcs : List Str) (cat : Str) (fm : FrequencyMap)
    (hc : lookupS (mkGenerator srcs).cats cat = some fm) (p : Str × Nat)
    (hp : p ∈ fm) : 1 ≤ p.2 := by
  unfold mkGenerator at hc
  by_cases hs : srcs = []
  · rw [if_pos hs] at hc
    have : fm = [] := lookupS_initModel cat fm hc
    subst this
    simp at hp
  · rw [if_neg hs, applyWeighting_cats_lookup] at hc
    cases h : lookupS (buildRawModel srcs) cat with
    | none => rw [h] at hc; cases hc
    | some fm0 =>
      rw [h] at hc
      cases hc
      simp only [reweighFM, List.mem_map] at hp
      obtain ⟨q, hq, hpq⟩ := hp
      have hv : 1 ≤ q.2 := by
        have := posM_buildRawModel srcs cat q
        unfold catOf at this
        rw [h] at this
        exact this hq
      rw [← hpq]
      exact weightOf_pos q.2 hv

/-! ## Claim C9 -/

/-- C9 counterexample (the claim's existential is false): no model
reachable from training stores a zero-weight leaf entry — a raw count is
always at least `1` and `floor(n^1.3) ≥ 1` for `n ≥ 1`. -/
theorem c9_counterexample : ZeroWeightReachable = False := by
  apply eq_false
  rintro ⟨srcs, cat, fm, p, hc, hp, hz⟩
  have h1 := weighted_values_pos srcs cat fm hc p hp
  omega

/-- C9 (amended): no zero-weight leaf is reachable from training — every
raw count is at least `1` and `floor(n^1.3) ≥ 1` for `n ≥ 1` — while the
weighting stage does keep every entry in place: it maps the stored
frequency map pointwise, preserving the key list. -/
theorem c9_no_zero_weights :
    (∀ (srcs : List Str) (cat : Str) (fm : FrequencyMap),
      lookupS (mkGenerator srcs).cats cat = some fm → ∀ p ∈ fm, 1 ≤ p.2) ∧
    (∀ (raw : RawModel) (cat : Str) (fm0 : FrequencyMap),
      lookupS raw cat = some fm0 →
      lookupS (applyWeighting raw).cats cat = some (reweighFM fm0) ∧
      keysOf (reweighFM fm0) = keysOf fm0) := by
  constructor
  · intro srcs cat fm hc p hp
    exact weighted_values_pos srcs cat fm hc p hp
  · intro raw cat fm0 h
    refine ⟨?_, keysOf_reweighFM fm0⟩
    rw [applyWeighting_cats_lookup, h]
    rfl

/-- C9 witness: on the training input `["a"]`, the single `initialUnit`
entry has weight `1 ≥ 1`, and re-weighting preserves its key list. -/
theorem c9_witness :
    (1 : Nat) ≤ ((['a'], (1 : Nat)) : Str × Nat).2 ∧
    keysOf (reweighFM [(['a'], 1)]) = keysOf [(['a'], 1)] :=
  ⟨c9_no_zero_weights.1 ["a".toList] initialUnitK [(['a'], 1)] (by decide)
      (['a'], 1) (by decide),
   (c9_no_zero_weights.2 (buildRawModel ["a".toList]) initialUnitK
      [(['a'], 1)] (by decide)).2⟩

/-! ## Claim C5 -/

/-- C5 counterexample: training on `["", "   "]` runs the weighting stage
over the three empty fixed categories, so `selectionWeights` is not the
empty mapping — it holds a zero total for each fixed category. -/
theorem c5_counterexample :
    (mkGenerator [[], "   ".toList]).sw ≠ [] ∧
    (mkGenerator [[], "   ".toList]).sw =
      [(termCountK, 0), (termLengthK, 0), (initialUnitK, 0)] := by decide

/-- C5 (amended): degenerate training never raises — the empty array gives
the minimal model with empty fixed categories and empty `selectionWeights`,
and empty or whitespace-only strings give empty fixed categories with a
zero `selectionWeights` total per category — and every `generate()` call on
either model fails deterministically, for every random stream. -/
theorem c5_degenerate_training :
    mkGenerator [] = emptyWeighted ∧
    emptyWeighted.cats = [(termCountK, []), (termLengthK, []), (initialUnitK, [])] ∧
    emptyWeighted.sw = [] ∧
    (mkGenerator [[], "   ".toList]).cats =
      [(termCountK, []), (termLengthK, []), (initialUnitK, [])] ∧
    (mkGenerator [[], "   ".toList]).sw =
      [(termCountK, 0), (termLengthK, 0), (initialUnitK, 0)] ∧
    (∀ rand : Nat → Nat, generate (mkGenerator []) rand = .error ()) ∧
    (∀ rand : Nat → Nat, generate (mkGenerator [[], "   ".toList]) rand = .error ()) := by
  refine ⟨rfl, rfl, rfl, by decide, by decide, fun rand => rfl, fun rand => rfl⟩

/-! ## Lemmas about the term loop -/

theorem genTerms_ok_extends (m : WeightedModel) (rand : Nat → Nat) :
    ∀ (i k : Nat) (acc l : List Str), (genTerms m rand i k acc).1 = .ok l →
      ∃ rest, l = acc ++ rest := by
  intro i
  induction i with
  | zero =>
    intro k acc l h
    simp only [genTerms] at h
    cases h
    exact ⟨[], by simp⟩
  | succ i ih =>
    intro k acc l h
    rw [genTerms] at h
    by_cases hf : stepFail m rand k
    · rw [if_pos hf] at h
      cases h
    · rw [if_neg hf] at h
      obtain ⟨rest, hrest⟩ := ih _ _ _ h
      exact ⟨(stepGrow m rand k).1 :: rest, by simp [hrest]⟩

theorem genTerms_error_iff (m : WeightedModel) (rand : Nat → Nat) :
    ∀ (i k : Nat) (acc : List Str),
      (genTerms m rand i k acc).1 = .error () ↔
      ∃ j, j < i ∧ (∃ l, (genTerms m rand j k acc).1 = .ok l) ∧
        stepFail m rand (genTerms m rand j k acc).2 = true := by
  intro i
  induction i with
  | zero =>
    intro k acc
    constructor
    · intro h
      simp [genTerms] at h
    · rintro ⟨j, hj, _⟩
      omega
  | succ i ih =>
    intro k acc
    by_cases hf : stepFail m rand k
    · constructor
      · intro _
        refine ⟨0, Nat.succ_pos i, ⟨acc, rfl⟩, ?_⟩
        simpa [genTerms] using hf
      · intro _
        simp [genTerms, hf]
    · have heq : genTerms m rand (i + 1) k acc =
          genTerms m rand i (stepGrow m rand k).2 (acc ++ [(stepGrow m rand k).1]) := by
        rw [genTerms, if_neg hf]
      constructor
      · intro h
        rw [heq] at h
        obtain ⟨j, hj, ⟨l, hl⟩, hsf⟩ := (ih _ _).mp h
        refine ⟨j + 1, by omega, ⟨l, ?_⟩, ?_⟩
        · rw [genTerms, if_neg hf]
          exact hl
        · rw [genTerms, if_neg hf]
          exact hsf
      · rintro ⟨j, hj, ⟨l, hl⟩, hsf⟩
        rw [heq]
        cases j with
        | zero =>
          simp only [genTerms] at hsf
          exact absurd hsf hf
        | succ j =>
          rw [genTerms, if_neg hf] at hl hsf
          exact (ih _ _).mpr ⟨j, by omega, ⟨l, hl⟩, hsf⟩

/-! ## Claim C4 -/

/-- C4: `generate()` throws exactly when some reached term iteration has a
failing check — the `initialUnit` draw is falsy or the parsed term length
is non-positive (`stepFail`) — after the earlier iterations all succeeded;
the thrown error carries no partial output. -/
theorem c4_generate_failure (m : WeightedModel) (rand : Nat → Nat) :
    generate m rand = .error () ↔
    ∃ j, j < tcIter m rand 0 ∧
      (∃ l, (genTerms m rand j (tcSample m rand 0).2 []).1 = .ok l) ∧
      stepFail m rand (genTerms m rand j (tcSample m rand 0).2 []).2 = true := by
  unfold generate generateRun
  constructor
  · intro h
    have herr : (genTerms m rand (tcIter m rand 0) (tcSample m rand 0).2 []).1 =
        .error () := by
      cases hg : (genTerms m rand (tcIter m rand 0) (tcSample m rand 0).2 []).1 with
      | error e => cases e; rfl
      | ok l => rw [hg] at h; cases h
    exact (genTerms_error_iff m rand _ _ _).mp herr
  · intro hex
    have herr := (genTerms_error_iff m rand (tcIter m rand 0) (tcSample m rand 0).2 []).mpr hex
    rw [herr]
    rfl

/-- C4 witness: on the empty model, `generate` throws, and the first term
iteration is the failing one. -/
theorem c4_witness :
    ∃ j, j < tcIter emptyWeighted (fun _ => 0) 0 ∧
      (∃ l, (genTerms emptyWeighted (fun _ => 0) j
        (tcSample emptyWeighted (fun _ => 0) 0).2 []).1 = .ok l) ∧
      stepFail emptyWeighted (fun _ => 0)
        (genTerms emptyWeighted (fun _ => 0) j
          (tcSample emptyWeighted (fun _ => 0) 0).2 []).2 = true :=
  (c4_generate_failure emptyWeighted (fun _ => 0)).mp rfl

/-! ## Claim C7 -/

/-- C7: a mid-growth miss — the transition category named by the previous
character absent, or its weighted sampling falsy — is not an error: the
growth loop stops and keeps the term at its current length, and when the
iteration's pre-checks pass, the (possibly truncated) grown term appears in
the output of any successful run of the remaining loop. -/
theorem c7_growth_miss_truncates :
    (∀ (m : WeightedModel) (rand : Nat → Nat) (tl fuel : Nat) (prev cur : Str) (k : Nat),
      cur.length < tl → falsy (selectChoice m prev rand k).1 = true →
      growTerm m rand tl (fuel + 1) prev cur k = (cur, (selectChoice m prev rand k).2)) ∧
    (∀ (m : WeightedModel) (rand : Nat → Nat) (i k : Nat) (acc res : List Str),
      stepFail m rand k = false → (genTerms m rand (i + 1) k acc).1 = .ok res →
      (stepGrow m rand k).1 ∈ res) := by
  constructor
  · intro m rand tl fuel prev cur k hlen hfal
    rw [growTerm, if_pos hlen]
    rcases hsc : selectChoice m prev rand k with ⟨o, k1⟩
    rw [hsc] at hfal
    simp only [hsc]
    cases o with
    | none => rfl
    | some nu =>
      simp only [falsy, decide_eq_true_eq] at hfal
      simp [hfal]
  · intro m rand i k acc res hsf hok
    rw [genTerms, if_neg (by simp [hsf])] at hok
    obtain ⟨rest, hrest⟩ := genTerms_ok_extends m rand i _ _ res hok
    rw [hrest]
    simp

/-- C7 witness: in the model trained from `["ab"]`, growing from `"ab"`
with previous character `b` (an absent transition category) stops and keeps
the term, and the successful one-term run keeps the grown term. -/
theorem c7_witness :
    growTerm (mkGenerator ["ab".toList]) (fun _ => 0) 3 6 ['b'] ['a', 'b'] 0 =
      (['a', 'b'], 0) ∧
    (stepGrow (mkGenerator ["ab".toList]) (fun _ => 0) 1).1 ∈ [['a', 'b']] := by
  constructor
  · exact c7_growth_miss_truncates.1 (mkGenerator ["ab".toList]) (fun _ => 0) 3 5
      ['b'] ['a', 'b'] 0 (by decide) (by decide)
  · exact c7_growth_miss_truncates.2 (mkGenerator ["ab".toList]) (fun _ => 0) 0 1
      [] [['a', 'b']] (by decide) (by decide)

/-! ## Claim C6 -/

theorem genListAux_length (m : WeightedModel) (rand : Nat → Nat) :
    ∀ (n k : Nat) (l : List Str), (genListAux m rand n k).1 = .ok l →
      l.length = n := by
  intro n
  induction n with
  | zero =>
    intro k l h
    simp only [genListAux] at h
    cases h
    rfl
  | succ n ih =>
    intro k l h
    rw [genListAux] at h
    rcases hg : generateRun m rand k with ⟨res, k1⟩
    simp only [hg] at h
    cases res with
    | error e => simp at h
    | ok ts =>
      rcases ha : genListAux m rand n k1 with ⟨res2, k2⟩
      simp only [ha] at h
      cases res2 with
      | error e => simp at h
      | ok rest =>
        cases h
        have hr : rest.length = n := ih k1 rest (by rw [ha])
        simp [hr]

/-- C6: `generateList(count)` makes `max(0, floor(count))` `generate()`
calls on the shared random stream; a non-positive count yields the empty
list without error, a successful batch has exactly that many results in
call order (first call's result first, the rest from the continued
stream), and a failing first call aborts the whole batch with no partial
result. -/
theorem c6_generateList (m : WeightedModel) (rand : Nat → Nat) (count : ℚ) :
    ((Int.floor count).toNat : Int) = max 0 (Int.floor count) ∧
    (∀ l, generateList m rand count = .ok l → l.length = (Int.floor count).toNat) ∧
    (Int.floor count ≤ 0 → generateList m rand count = .ok []) ∧
    (∀ l, generateList m rand count = .ok l → 0 < Int.floor count →
      ∃ ts k1 rest, generateRun m rand 0 = (.ok ts, k1) ∧
        (genListAux m rand ((Int.floor count).toNat - 1) k1).1 = .ok rest ∧
        l = joinSp ts :: rest) ∧
    ((generateRun m rand 0).1 = .error () → 0 < Int.floor count →
      generateList m rand count = .error ()) := by
  refine ⟨by omega, ?_, ?_, ?_, ?_⟩
  · intro l h
    exact genListAux_length m rand _ 0 l h
  · intro hle
    have h0 : (Int.floor count).toNat = 0 := by omega
    unfold generateList
    rw [h0]
    rfl
  · intro l h hpos
    have hn : (Int.floor count).toNat = ((Int.floor count).toNat - 1) + 1 := by omega
    unfold generateList at h
    rw [hn, genListAux] at h
    rcases hg : generateRun m rand 0 with ⟨res, k1⟩
    simp only [hg] at h
    cases res with
    | error e => simp at h
    | ok ts =>
      rcases ha : genListAux m rand ((Int.floor count).toNat - 1) k1 with ⟨res2, k2⟩
      simp only [ha] at h
      cases res2 with
      | error e => simp at h
      | ok rest =>
        cases h
        exact ⟨ts, k1, rest, rfl, by rw [ha], rfl⟩
  · intro herr hpos
    have hn : (Int.floor count).toNat = ((Int.floor count).toNat - 1) + 1 := by omega
    unfold generateList
    rw [hn, genListAux]
    rcases hg : generateRun m rand 0 with ⟨res, k1⟩
    simp only [hg] at herr ⊢
    cases res with
    | error e => cases e; rfl
    | ok ts => cases herr

/-- C6 witness: a negative count yields `[]`, a failing first call aborts
the batch, and a successful batch of three has length `⌊3⌋`. -/
theorem c6_witness :
    generateList (mkGenerator ["ab".toList]) (fun _ => 0) (-3) = .ok [] ∧
    generateList (mkGenerator []) (fun _ => 0) 2 = .error () ∧
    ([['a', 'b'], ['a', 'b'], ['a', 'b']] : List Str).length =
      (Int.floor (3 : ℚ)).toNat := by
  refine ⟨?_, ?_, ?_⟩
  · exact (c6_generateList (mkGenerator ["ab".toList]) (fun _ => 0) (-3)).2.2.1 (by decide)
  · exact (c6_generateList (mkGenerator []) (fun _ => 0) 2).2.2.2.2 rfl (by decide)
  · exact (c6_generateList (mkGenerator ["ab".toList]) (fun _ => 0) 3).2.1 _ (by decide)

/-! ## Counter monotonicity and draw agreement -/

/-- Step equation: the loop does not run when the length bound is met. -/
theorem growTerm_stop (m : WeightedModel) (rand : Nat → Nat) (tl fuel : Nat)
    (prev cur : Str) (k : Nat) (hc : ¬cur.length < tl) :
    growTerm m rand tl (fuel + 1) prev cur k = (cur, k) := by
  rw [growTerm, if_neg hc]

/-- Step equation: a missing draw ends the loop at the current term. -/
theorem growTerm_succ_none (m : WeightedModel) (rand : Nat → Nat) (tl fuel : Nat)
    (prev cur : Str) (k k1 : Nat) (hc : cur.length < tl)
    (hsc : selectChoice m prev rand k = (none, k1)) :
    growTerm m rand tl (fuel + 1) prev cur k = (cur, k1) := by
  rw [growTerm, if_pos hc, hsc]

/-- Step equation: an empty-string draw ends the loop at the current term. -/
theorem growTerm_succ_falsy (m : WeightedModel) (rand : Nat → Nat) (tl fuel : Nat)
    (prev cur : Str) (k k1 : Nat) (hc : cur.length < tl)
    (hsc : selectChoice m prev rand k = (some [], k1)) :
    growTerm m rand tl (fuel + 1) prev cur k = (cur, k1) := by
  rw [growTerm, if_pos hc, hsc]
  rfl

/-- Step equation: a drawn unit is appended and the loop continues. -/
theorem growTerm_succ_step (m : WeightedModel) (rand : Nat → Nat) (tl fuel : Nat)
    (prev cur nu : Str) (k k1 : Nat) (hc : cur.length < tl)
    (hsc : selectChoice m prev rand k = (some nu, k1)) (hnu : ¬nu = []) :
    growTerm m rand tl (fuel + 1) prev cur k =
      growTerm m rand tl fuel nu (cur ++ nu) k1 := by
  rw [growTerm, if_pos hc, hsc]
  exact if_neg hnu

theorem growTerm_snd_ge (m : WeightedModel) (rand : Nat → Nat) (tl : Nat) :
    ∀ (fuel : Nat) (prev cur : Str) (k : Nat),
      k ≤ (growTerm m rand tl fuel prev cur k).2 := by
  intro fuel
  induction fuel with
  | zero => intro prev cur k; exact Nat.le_refl k
  | succ fuel ih =>
    intro prev cur k
    by_cases hc : cur.length < tl
    · have hk1 := selectChoice_snd_ge m prev rand k
      rcases hsc : selectChoice m prev rand k with ⟨o, k1⟩
      rw [hsc] at hk1
      cases o with
      | none => rw [growTerm_succ_none m rand tl fuel prev cur k k1 hc hsc]; exact hk1
      | some nu =>
        by_cases hnu : nu = []
        · subst hnu
          rw [growTerm_succ_falsy m rand tl fuel prev cur k k1 hc hsc]
          exact hk1
        · rw [growTerm_succ_step m rand tl fuel prev cur nu k k1 hc hsc hnu]
          exact Nat.le_trans hk1 (ih nu (cur ++ nu) k1)
    · rw [growTerm_stop m rand tl fuel prev cur k hc]

theorem growTerm_agree (m : WeightedModel) (rand1 rand2 : Nat → Nat) (tl : Nat) :
    ∀ (fuel : Nat) (prev cur : Str) (k : Nat),
      (∀ j, k ≤ j → j < (growTerm m rand1 tl fuel prev cur k).2 → rand1 j = rand2 j) →
      growTerm m rand2 tl fuel prev cur k = growTerm m rand1 tl fuel prev cur k := by
  intro fuel
  induction fuel with
  | zero => intro prev cur k h; rfl
  | succ fuel ih =>
    intro prev cur k h
    by_cases hc : cur.length < tl
    · rcases hsc1 : selectChoice m prev rand1 k with ⟨o1, k1⟩
      have hk1 : k ≤ k1 := by
        have := selectChoice_snd_ge m prev rand1 k
        rw [hsc1] at this
        exact this
      cases o1 with
      | none =>
        rw [growTerm_succ_none m rand1 tl fuel prev cur k k1 hc hsc1] at h
        have hsc2 : selectChoice m prev rand2 k = (none, k1) := by
          rw [← hsc1]
          apply selectChoice_agree
          intro j hj hjlt
          rw [hsc1] at hjlt
          exact h j hj hjlt
        rw [growTerm_succ_none m rand2 tl fuel prev cur k k1 hc hsc2,
          growTerm_succ_none m rand1 tl fuel prev cur k k1 hc hsc1]
      | some nu =>
        by_cases hnu : nu = []
        · subst hnu
          rw [growTerm_succ_falsy m rand1 tl fuel prev cur k k1 hc hsc1] at h
          have hsc2 : selectChoice m prev rand2 k = (some [], k1) := by
            rw [← hsc1]
            apply selectChoice_agree
            intro j hj hjlt
            rw [hsc1] at hjlt
            exact h j hj hjlt
          rw [growTerm_succ_falsy m rand2 tl fuel prev cur k k1 hc hsc2,
            growTerm_succ_falsy m rand1 tl fuel prev cur k k1 hc hsc1]
        · rw [growTerm_succ_step m rand1 tl fuel prev cur nu k k1 hc hsc1 hnu] at h
          have hge : k1 ≤ (growTerm m rand1 tl fuel nu (cur ++ nu) k1).2 :=
            growTerm_snd_ge m rand1 tl fuel nu (cur ++ nu) k1
          have hsc2 : selectChoice m prev rand2 k = (some nu, k1) := by
            rw [← hsc1]
            apply selectChoice_agree
            intro j hj hjlt
            rw [hsc1] at hjlt
            exact h j hj (by omega)
          rw [growTerm_succ_step m rand2 tl fuel prev cur nu k k1 hc hsc2 hnu,
            growTerm_succ_step m rand1 tl fuel prev cur nu k k1 hc hsc1 hnu]
          exact ih nu (cur ++ nu) k1 fun j hj hjlt => h j (Nat.le_trans hk1 hj) hjlt
    · rw [growTerm_stop m rand2 tl fuel prev cur k hc,
        growTerm_stop m rand1 tl fuel prev cur k hc]

theorem stepTL_snd_ge (m : WeightedModel) (rand : Nat → Nat) (k : Nat) :
    k ≤ (stepTL m rand k).2 :=
  selectChoice_snd_ge m termLengthK rand k

theorem stepIni_snd_ge (m : WeightedModel) (rand : Nat → Nat) (k : Nat) :
    k ≤ (stepIni m rand k).2 :=
  Nat.le_trans (stepTL_snd_ge m rand k)
    (selectChoice_snd_ge m initialUnitK rand (stepTL m rand k).2)

theorem stepGrow_snd_ge (m : WeightedModel) (rand : Nat → Nat) (k : Nat) :
    (stepIni m rand k).2 ≤ (stepGrow m rand k).2 :=
  growTerm_snd_ge m rand _ _ _ _ _

theorem pre_agree (m : WeightedModel) (rand1 rand2 : Nat → Nat) (k : Nat)
    (h : ∀ j, k ≤ j → j < (stepIni m rand1 k).2 → rand1 j = rand2 j) :
    stepTL m rand2 k = stepTL m rand1 k ∧ stepIni m rand2 k = stepIni m rand1 k ∧
    stepLen m rand2 k = stepLen m rand1 k ∧ stepFail m rand2 k = stepFail m rand1 k := by
  have htl2 : (stepTL m rand1 k).2 ≤ (stepIni m rand1 k).2 :=
    selectChoice_snd_ge m initialUnitK rand1 (stepTL m rand1 k).2
  have htl : stepTL m rand2 k = stepTL m rand1 k := by
    apply selectChoice_agree
    intro j hj hjlt
    have hjlt2 : j < (stepTL m rand1 k).2 := hjlt
    exact h j hj (by omega)
  have hini : stepIni m rand2 k = stepIni m rand1 k := by
    unfold stepIni
    rw [htl]
    apply selectChoice_agree
    intro j hj hjlt
    have hjlt2 : j < (stepIni m rand1 k).2 := hjlt
    exact h j (Nat.le_trans (stepTL_snd_ge m rand1 k) hj) hjlt2
  have hlen : stepLen m rand2 k = stepLen m rand1 k := by
    unfold stepLen
    rw [htl]
  refine ⟨htl, hini, hlen, ?_⟩
  unfold stepFail
  rw [hini, hlen]

theorem stepGrow_agree (m : WeightedModel) (rand1 rand2 : Nat → Nat) (k : Nat)
    (h : ∀ j, k ≤ j → j < (stepGrow m rand1 k).2 → rand1 j = rand2 j) :
    stepGrow m rand2 k = stepGrow m rand1 k := by
  have hpre := pre_agree m rand1 rand2 k fun j hj hjlt =>
    h j hj (by have h2 := stepGrow_snd_ge m rand1 k; omega)
  simp only [stepGrow]
  rw [hpre.2.1, hpre.2.2.1]
  apply growTerm_agree
  intro j hj hjlt
  have hjlt2 : j < (stepGrow m rand1 k).2 := hjlt
  exact h j (Nat.le_trans (stepIni_snd_ge m rand1 k) hj) hjlt2

theorem genTerms_snd_ge (m : WeightedModel) (rand : Nat → Nat) :
    ∀ (i k : Nat) (acc : List Str), k ≤ (genTerms m rand i k acc).2 := by
  intro i
  induction i with
  | zero => intro k acc; exact Nat.le_refl k
  | succ i ih =>
    intro k acc
    rw [genTerms]
    by_cases hf : stepFail m rand k
    · rw [if_pos hf]
      exact stepIni_snd_ge m rand k
    · rw [if_neg hf]
      have h1 : k ≤ (stepGrow m rand k).2 :=
        Nat.le_trans (stepIni_snd_ge m rand k) (stepGrow_snd_ge m rand k)
      exact Nat.le_trans h1 (ih (stepGrow m rand k).2 (acc ++ [(stepGrow m rand k).1]))

theorem genTerms_agree (m : WeightedModel) (rand1 rand2 : Nat → Nat) :
    ∀ (i k : Nat) (acc : List Str),
      (∀ j, k ≤ j → j < (genTerms m rand1 i k acc).2 → rand1 j = rand2 j) →
      genTerms m rand2 i k acc = genTerms m rand1 i k acc := by
  intro i
  induction i with
  | zero => intro k acc h; rfl
  | succ i ih =>
    intro k acc h
    by_cases hf : stepFail m rand1 k
    · rw [genTerms, if_pos hf] at h
      have hpre := pre_agree m rand1 rand2 k h
      rw [genTerms, hpre.2.2.2, if_pos hf, hpre.2.1, genTerms, if_pos hf]
    · rw [genTerms, if_neg hf] at h
      have hbound : (stepGrow m rand1 k).2 ≤
          (genTerms m rand1 i (stepGrow m rand1 k).2 (acc ++ [(stepGrow m rand1 k).1])).2 :=
        genTerms_snd_ge m rand1 i _ _
      have hgrow : stepGrow m rand2 k = stepGrow m rand1 k := by
        apply stepGrow_agree
        intro j hj hjlt
        exact h j hj (by omega)
      have hpre := pre_agree m rand1 rand2 k fun j hj hjlt =>
        h j hj (by have h2 := stepGrow_snd_ge m rand1 k; omega)
      rw [genTerms, hpre.2.2.2, if_neg hf, hgrow, genTerms, if_neg hf]
      apply ih
      intro j hj hjlt
      have hk : k ≤ (stepGrow m rand1 k).2 :=
        Nat.le_trans (stepIni_snd_ge m rand1 k) (stepGrow_snd_ge m rand1 k)
      exact h j (by omega) hjlt

theorem tcSample_snd_ge (m : WeightedModel) (rand : Nat → Nat) (k : Nat) :
    k ≤ (tcSample m rand k).2 :=
  selectChoice_snd_ge m termCountK rand k

theorem generateRun_agree (m : WeightedModel) (rand1 rand2 : Nat → Nat) (k : Nat)
    (h : ∀ j, k ≤ j → j < (generateRun m rand1 k).2 → rand1 j = rand2 j) :
    generateRun m rand2 k = generateRun m rand1 k := by
  unfold generateRun at h ⊢
  have hbound : (tcSample m rand1 k).2 ≤
      (genTerms m rand1 (tcIter m rand1 k) (tcSample m rand1 k).2 []).2 :=
    genTerms_snd_ge m rand1 _ _ _
  have htc : tcSample m rand2 k = tcSample m rand1 k := by
    apply selectChoice_agree
    intro j hj hjlt
    have hjlt2 : j < (tcSample m rand1 k).2 := hjlt
    exact h j hj (by omega)
  have hiter : tcIter m rand2 k = tcIter m rand1 k := by
    unfold tcIter
    rw [htc]
  rw [htc, hiter]
  apply genTerms_agree
  intro j hj hjlt
  exact h j (Nat.le_trans (tcSample_snd_ge m rand1 k) hj) hjlt

/-! ## Claim C10 -/

/-- C10: `generate` is deterministic in its random draws — two runs whose
random streams agree on every draw the first run consumes produce the same
term list, final draw count, output string, and success/failure outcome. -/
theorem c10_determinism (m : WeightedModel) (rand1 rand2 : Nat → Nat)
    (h : ∀ j, j < (generateRun m rand1 0).2 → rand1 j = rand2 j) :
    generateRun m rand2 0 = generateRun m rand1 0 ∧
    generate m rand2 = generate m rand1 := by
  have hr := generateRun_agree m rand1 rand2 0 fun j _ hj => h j hj
  refine ⟨hr, ?_⟩
  unfold generate
  rw [hr]

/-- C10 witness: on the model trained from `["ab"]`, a stream differing
from the all-zero stream only from draw index 4 on (one past the four
consumed draws) generates the same string. -/
theorem c10_witness :
    generate (mkGenerator ["ab".toList]) (fun j => if j < 4 then 0 else 7) =
      generate (mkGenerator ["ab".toList]) (fun _ => 0) :=
  (c10_determinism (mkGenerator ["ab".toList]) (fun _ => 0)
    (fun j => if j < 4 then 0 else 7) (by decide)).2

/-! ## Provenance of generated characters -/

theorem single_ne_fixed (a : Char) :
    ([a] : Str) ≠ termCountK ∧ ([a] : Str) ≠ termLengthK ∧ ([a] : Str) ≠ initialUnitK := by
  refine ⟨fun h => ?_, fun h => ?_, fun h => ?_⟩
  · have hl : (1 : Nat) = List.length termCountK := congrArg List.length h
    exact absurd hl (by decide)
  · have hl : (1 : Nat) = List.length termLengthK := congrArg List.length h
    exact absurd hl (by decide)
  · have hl : (1 : Nat) = List.length initialUnitK := congrArg List.length h
    exact absurd hl (by decide)

theorem invRaw_inc_fixedCount (srcs : List Str) (m : RawModel) (cat ch : Str)
    (hcat : cat = termCountK ∨ cat = termLengthK) (h : InvRaw srcs m) :
    InvRaw srcs (increment m cat ch) := by
  constructor
  · intro s hsk
    rw [catOf_increment_ne m cat ch initialUnitK ?hne] at hsk
    · exact h.1 s hsk
    case hne =>
      rcases hcat with h1 | h1 <;> subst h1 <;> decide
  · intro a s hsk
    rw [catOf_increment_ne m cat ch [a] ?hne2] at hsk
    · exact h.2 a s hsk
    case hne2 =>
      rcases hcat with h1 | h1
      · subst h1
        exact (single_ne_fixed a).1
      · subst h1
        exact (single_ne_fixed a).2.1

theorem invRaw_inc_initial (srcs : List Str) (m : RawModel) (c : Char)
    (hobs : initialsObs srcs c) (h : InvRaw srcs m) :
    InvRaw srcs (increment m initialUnitK [c]) := by
  constructor
  · intro s hsk
    rcases keys_catOf_increment m initialUnitK [c] s hsk with h1 | h1
    · exact ⟨c, h1, hobs⟩
    · exact h.1 s h1
  · intro a s hsk
    rw [catOf_increment_ne m initialUnitK [c] [a] (single_ne_fixed a).2.2] at hsk
    exact h.2 a s hsk

theorem invRaw_inc_trans (srcs : List Str) (m : RawModel) (p c : Char)
    (hobs : targetsObs srcs c) (h : InvRaw srcs m) :
    InvRaw srcs (increment m [p] [c]) := by
  constructor
  · intro s hsk
    rw [catOf_increment_ne m [p] [c] initialUnitK
      (fun he => (single_ne_fixed p).2.2 he.symm)] at hsk
    exact h.1 s hsk
  · intro a s hsk
    by_cases hap : ([a] : Str) = [p]
    · rcases keys_catOf_increment m [p] [c] s (hap ▸ hsk) with h1 | h1
      · exact ⟨c, h1, hobs⟩
      · refine h.2 a s ?_
        rw [hap]
        exact h1
    · rw [catOf_increment_ne m [p] [c] [a] hap] at hsk
      exact h.2 a s hsk

theorem invRaw_procTermChars (srcs : List Str) (l : List Char) :
    ∀ (m : RawModel) (p : Char), (∀ c ∈ l, targetsObs srcs c) → InvRaw srcs m →
      InvRaw srcs (procTermChars m [p] l) := by
  induction l with
  | nil => intro m p _ h; exact h
  | cons c rest ih =>
    intro m p hl h
    exact ih _ c (fun x hx => hl x (List.mem_cons_of_mem c hx))
      (invRaw_inc_trans srcs m p c (hl c (List.mem_cons_self c rest)) h)

theorem invRaw_procTerm (srcs : List Str) (s t : Str) (hs : s ∈ srcs)
    (ht : t ∈ splitWs s) : ∀ m, InvRaw srcs m → InvRaw srcs (procTerm m t) := by
  intro m h
  cases t with
  | nil => exact invRaw_inc_fixedCount srcs m termLengthK _ (Or.inr rfl) h
  | cons c rest =>
    have h1 := invRaw_inc_fixedCount srcs m termLengthK
      (natToStr (c :: rest).length) (Or.inr rfl) h
    have h2 : initialsObs srcs c := ⟨s, hs, c :: rest, ht, rfl⟩
    have h3 : ∀ x ∈ rest, targetsObs srcs x := fun x hx =>
      ⟨s, hs, c :: rest, ht, by simpa using hx⟩
    exact invRaw_procTermChars srcs rest _ c h3 (invRaw_inc_initial srcs _ c h2 h1)

theorem invRaw_foldTerms (srcs : List Str) (s : Str) (hs : s ∈ srcs) :
    ∀ (terms : List Str), (∀ t ∈ terms, t ∈ splitWs s) →
      ∀ m, InvRaw srcs m → InvRaw srcs (terms.foldl procTerm m) := by
  intro terms
  induction terms with
  | nil => intro _ m h; exact h
  | cons t rest ih =>
    intro hsub m h
    exact ih (fun x hx => hsub x (List.mem_cons_of_mem t hx)) _
      (invRaw_procTerm srcs s t hs (hsub t (List.mem_cons_self t rest)) m h)

theorem invRaw_procSeq (srcs : List Str) (s : Str) (hs : s ∈ srcs) (m : RawModel)
    (h : InvRaw srcs m) : InvRaw srcs (procSeq m s) := by
  unfold procSeq
  by_cases h1 : s = []
  · simpa [h1] using h
  · simp only [h1, if_false]
    by_cases h2 : splitWs s = []
    · simpa [h2] using h
    · simp only [h2, if_false]
      exact invRaw_foldTerms srcs s hs (splitWs s) (fun t ht => ht) _
        (invRaw_inc_fixedCount srcs m termCountK _ (Or.inl rfl) h)

theorem invRaw_foldSeqs (srcs : List Str) :
    ∀ (l : List Str), (∀ x ∈ l, x ∈ srcs) →
      ∀ m, InvRaw srcs m → InvRaw srcs (l.foldl procSeq m) := by
  intro l
  induction l with
  | nil => intro _ m h; exact h
  | cons x rest ih =>
    intro hsub m h
    exact ih (fun y hy => hsub y (List.mem_cons_of_mem x hy)) _
      (invRaw_procSeq srcs x (hsub x (List.mem_cons_self x rest)) m h)

theorem invRaw_initModel (srcs : List Str) : InvRaw srcs initModel := by
  constructor
  · intro s hsk
    rw [catOf_initModel] at hsk
    simp [keysOf] at hsk
  · intro a s hsk
    rw [catOf_initModel] at hsk
    simp [keysOf] at hsk

theorem invRaw_buildRawModel (srcs : List Str) : InvRaw srcs (buildRawModel srcs) :=
  invRaw_foldSeqs srcs srcs (fun _ hx => hx) initModel (invRaw_initModel srcs)

theorem mkGenerator_cats_lookup (srcs : List Str) (cat : Str) (hs : ¬srcs = []) :
    lookupS (mkGenerator srcs).cats cat =
      (lookupS (buildRawModel srcs) cat).map reweighFM := by
  unfold mkGenerator
  rw [if_neg hs]
  exact applyWeighting_cats_lookup _ cat

theorem selectChoice_initial_obs (srcs : List Str) (rand : Nat → Nat) (k : Nat)
    (s : Str) (k2 : Nat) (hs : ¬srcs = [])
    (h : selectChoice (mkGenerator srcs) initialUnitK rand k = (some s, k2)) :
    ∃ c, s = [c] ∧ initialsObs srcs c := by
  obtain ⟨fm, hfm, hmem⟩ := selectChoice_mem _ _ _ _ _ _ h
  rw [mkGenerator_cats_lookup srcs initialUnitK hs] at hfm
  cases hr : lookupS (buildRawModel srcs) initialUnitK with
  | none => rw [hr] at hfm; cases hfm
  | some fm0 =>
    rw [hr] at hfm
    cases hfm
    rw [keysOf_reweighFM] at hmem
    refine (invRaw_buildRawModel srcs).1 s ?_
    unfold catOf
    rw [hr]
    exact hmem

theorem selectChoice_trans_obs (srcs : List Str) (rand : Nat → Nat) (k : Nat)
    (p : Char) (s : Str) (k2 : Nat) (hs : ¬srcs = [])
    (h : selectChoice (mkGenerator srcs) [p] rand k = (some s, k2)) :
    ∃ c, s = [c] ∧ targetsObs srcs c := by
  obtain ⟨fm, hfm, hmem⟩ := selectChoice_mem _ _ _ _ _ _ h
  rw [mkGenerator_cats_lookup srcs [p] hs] at hfm
  cases hr : lookupS (buildRawModel srcs) [p] with
  | none => rw [hr] at hfm; cases hfm
  | some fm0 =>
    rw [hr] at hfm
    cases hfm
    rw [keysOf_reweighFM] at hmem
    refine (invRaw_buildRawModel srcs).2 p s ?_
    unfold catOf
    rw [hr]
    exact hmem

theorem growTerm_obs (srcs : List Str) (rand : Nat → Nat) (hs : ¬srcs = []) (tl : Nat) :
    ∀ (fuel : Nat) (p : Char) (cur : Str) (k : Nat),
      (∀ c ∈ cur, ObsChar srcs c) →
      ∀ c ∈ (growTerm (mkGenerator srcs) rand tl fuel [p] cur k).1, ObsChar srcs c := by
  intro fuel
  induction fuel with
  | zero => intro p cur k hcur c hc; exact hcur c hc
  | succ fuel ih =>
    intro p cur k hcur
    by_cases hlen : cur.length < tl
    · rcases hsc : selectChoice (mkGenerator srcs) [p] rand k with ⟨o, k1⟩
      cases o with
      | none =>
        rw [growTerm_succ_none _ rand tl fuel [p] cur k k1 hlen hsc]
        exact hcur
      | some nu =>
        by_cases hnu : nu = []
        · subst hnu
          rw [growTerm_succ_falsy _ rand tl fuel [p] cur k k1 hlen hsc]
          exact hcur
        · obtain ⟨c0, hc0, hobs⟩ := selectChoice_trans_obs srcs rand k p nu k1 hs hsc
          subst hc0
          rw [growTerm_succ_step _ rand tl fuel [p] cur [c0] k k1 hlen hsc hnu]
          refine ih c0 (cur ++ [c0]) k1 ?_
          intro c hc
          rcases List.mem_append.mp hc with h1 | h1
          · exact hcur c h1
          · have : c = c0 := List.mem_singleton.mp h1
            subst this
            exact Or.inr hobs
    · rw [growTerm_stop _ rand tl fuel [p] cur k hlen]
      exact hcur

theorem genTerms_obs (srcs : List Str) (rand : Nat → Nat) (hs : ¬srcs = []) :
    ∀ (i k : Nat) (acc res : List Str),
      (∀ t ∈ acc, ∀ c ∈ t, ObsChar srcs c) →
      (genTerms (mkGenerator srcs) rand i k acc).1 = .ok res →
      ∀ t ∈ res, ∀ c ∈ t, ObsChar srcs c := by
  intro i
  induction i with
  | zero =>
    intro k acc res hacc hok
    simp only [genTerms] at hok
    cases hok
    exact hacc
  | succ i ih =>
    intro k acc res hacc hok
    by_cases hf : stepFail (mkGenerator srcs) rand k
    · rw [genTerms, if_pos hf] at hok
      cases hok
    · rw [genTerms, if_neg hf] at hok
      refine ih _ _ res ?_ hok
      intro t ht c hc
      rcases List.mem_append.mp ht with h1 | h1
      · exact hacc t h1 c hc
      · have ht0 : t = (stepGrow (mkGenerator srcs) rand k).1 := List.mem_singleton.mp h1
        subst ht0
        have hff : stepFail (mkGenerator srcs) rand k = false := by simpa using hf
        have hfalsy : falsy (stepIni (mkGenerator srcs) rand k).1 = false := by
          unfold stepFail at hff
          exact (Bool.or_eq_false_iff.mp hff).1
        rcases hini : (stepIni (mkGenerator srcs) rand k).1 with _ | s0
        · rw [hini] at hfalsy
          simp [falsy] at hfalsy
        · have hpair : stepIni (mkGenerator srcs) rand k =
              (some s0, (stepIni (mkGenerator srcs) rand k).2) := by
            rw [← hini]
          obtain ⟨c0, hc0, hobs⟩ := selectChoice_initial_obs srcs rand
            (stepTL (mkGenerator srcs) rand k).2 s0
            (stepIni (mkGenerator srcs) rand k).2 hs hpair
          have hsg : (stepGrow (mkGenerator srcs) rand k).1 =
              (growTerm (mkGenerator srcs) rand
                (toIterNat (stepLen (mkGenerator srcs) rand k))
                (toIterNat (stepLen (mkGenerator srcs) rand k)) s0 s0
                (stepIni (mkGenerator srcs) rand k).2).1 := by
            simp only [stepGrow, hini, Option.getD_some]
          rw [hsg, hc0] at hc
          refine growTerm_obs srcs rand hs _ _ c0 [c0] _ ?_ c hc
          intro x hx
          have : x = c0 := List.mem_singleton.mp hx
          subst this
          exact Or.inl hobs

/-! ## Claim C8 -/

/-- C8: every character of every term produced by a successful
`generate()` run appeared in the training data, either as the first
character of some term (an `initialUnit` choice) or as a character
immediately following another inside a term (a transition target). -/
theorem c8_no_invented_chars (srcs : List Str) (rand : Nat → Nat) (k : Nat)
    (ts : List Str) (kf : Nat)
    (h : generateRun (mkGenerator srcs) rand k = (.ok ts, kf)) :
    ∀ t ∈ ts, ∀ c ∈ t, initialsObs srcs c ∨ targetsObs srcs c := by
  by_cases hs : srcs = []
  · subst hs
    have he : generateRun (mkGenerator []) rand k = (.error (), k) := rfl
    rw [he] at h
    simp at h
  · have hok : (genTerms (mkGenerator srcs) rand (tcIter (mkGenerator srcs) rand k)
        (tcSample (mkGenerator srcs) rand k).2 []).1 = .ok ts :=
      congrArg Prod.fst h
    exact genTerms_obs srcs rand hs _ _ [] ts (by simp) hok

/-- C8 witness: the run on the model trained from `["ab"]` produces the
term `"ab"`, whose characters are the observed initial `a` and the observed
transition target `b`. -/
theorem c8_witness :
    (initialsObs ["ab".toList] 'a' ∨ targetsObs ["ab".toList] 'a') ∧
    (initialsObs ["ab".toList] 'b' ∨ targetsObs ["ab".toList] 'b') :=
  ⟨c8_no_invented_chars ["ab".toList] (fun _ => 0) 0 [['a', 'b']] 4 (by decide)
      ['a', 'b'] (by decide) 'a' (by decide),
   c8_no_invented_chars ["ab".toList] (fun _ => 0) 0 [['a', 'b']] 4 (by decide)
      ['a', 'b'] (by decide) 'b' (by decide)⟩

end Markov
